import Mathlib

/-!
Verification of the CCD image-calibration notebook (`ImageCalibration.ipynb`).

The notebook's core computations are embedded shallowly over `ℚ`:
* samples, curve entries, gains, biases, weights and irradiance values are
  rationals (the notebook works with numpy float64 arrays; `ℚ` keeps the
  algebra exact),
* Python's `int(x)` truncation toward zero and Python/numpy list indexing
  (negative indices wrap from the end, out-of-range raises) are made explicit,
* an operation that can raise (`IndexError` on a curve lookup) returns
  `Option`.
The scipy minimizer called by `calc_gradients` is external library code and is
modelled as an abstract solver function passed to the calibration step.
-/

/-- Python `int(x)` on a rational: truncation toward zero. -/
def pyIntTrunc (x : ℚ) : ℤ := if 0 ≤ x then ⌊x⌋ else ⌈x⌉

/-- Python sequence indexing `l[i]` with an integer index: a negative index
wraps from the end (`l[-1]` is the last element), an index out of range on
either side raises, modelled as `none`. -/
def pyGet (l : List ℚ) (i : ℤ) : Option ℚ :=
  if 0 ≤ i then l.get? i.toNat
  else if (-i).toNat ≤ l.length then l.get? (l.length - (-i).toNat)
  else none

/-- The notebook's `g_func` (and the per-element lookups `dg[int(x)]`,
`apply_g`): look the sample up in the 256-entry curve as `g[int(x)]`. -/
def g_func (g : List ℚ) (x : ℚ) : Option ℚ := pyGet g (pyIntTrunc x)

/-- The initial response curve `g = [i for i in range(256)]`: the identity
curve. -/
def idCurve : List ℚ := List.map (fun n : ℕ => (n : ℚ)) (List.range 256)

/-- The nonnegative index a valid code sample is looked up at. -/
def codeIdx (x : ℚ) : ℕ := (pyIntTrunc x).toNat

/-- A sample is a valid code when it is an integer in `[0, 255]`, the raw-frame
contract of the data model. -/
def validCode (x : ℚ) : Prop := ∃ n : ℕ, n < 256 ∧ x = (n : ℚ)

/-- Map a fallible function over a list, failing if any element fails
(the Python semantics of an exception inside a vectorized map /
comprehension). -/
def mapOpt (f : α → Option β) : List α → Option (List β)
  | [] => some []
  | x :: xs => (f x).bind fun y => (mapOpt f xs).map fun ys => y :: ys

/-- Python `sum(results)` over a nonempty list of equal-length numpy vectors:
elementwise sum (the scalar start value `0` broadcasts away). -/
def vecSum : List (List ℚ) → List ℚ
  | [] => []
  | v :: vs =>
    match vs with
    | [] => v
    | _ :: _ => List.zipWith (· + ·) v (vecSum vs)

/-- One summand of `calc_E`: the notebook's `calc_E_single`, computing frame
`i`'s contribution `w[i] * (g_func(data[i, :]) - b[i]) / a[i]` over all
pixels. -/
def calc_E_single (g : List ℚ) (w : List ℚ) (data : List (List ℚ))
    (b a : List ℚ) (i : ℕ) : Option (List ℚ) :=
  mapOpt (fun x => (g_func g x).map fun gx =>
      w.getD i 0 * (gx - b.getD i 0) / a.getD i 0)
    (data.getD i [])

/-- The notebook's `calc_E`: irradiance prediction, formula 9. Each frame's
contribution is computed separately (in the notebook, in parallel) and the
per-frame result vectors are summed. -/
def calc_E (g : List ℚ) (w : List ℚ) (data : List (List ℚ))
    (b a : List ℚ) : Option (List ℚ) :=
  (mapOpt (calc_E_single g w data b a) (List.range data.length)).map vecSum

/-- numpy `mean` of a list of rationals. -/
def listMean (l : List ℚ) : ℚ := l.sum / l.length

/-- Insert into an ascending sorted list. -/
def insertSorted (x : ℚ) : List ℚ → List ℚ
  | [] => [x]
  | y :: ys => if x ≤ y then x :: y :: ys else y :: insertSorted x ys

/-- Ascending insertion sort, the ordering behind numpy's `median`. -/
def sortQ (l : List ℚ) : List ℚ := l.foldr insertSorted []

/-- numpy `median`: middle element of the sorted data for odd length, average
of the two middle elements for even length. -/
def npMedian (l : List ℚ) : ℚ :=
  if l.length % 2 = 1 then (sortQ l).getD (l.length / 2) 0
  else ((sortQ l).getD (l.length / 2 - 1) 0 + (sortQ l).getD (l.length / 2) 0) / 2

/-- The notebook's `pool`: the positions of frame `k` whose value differs from
`z` by strictly less than `eps` (`mask = np.abs(image - z) < eps`, then
`mask.nonzero()`, which lists the positions in increasing order). -/
def pool (data : List (List ℚ)) (k : ℕ) (z : ℚ) (eps : ℚ := 1) : List ℕ :=
  (List.range (data.getD k []).length).filter
    (fun i => |(data.getD k []).getD i 0 - z| < eps)

/-- Frame `k`'s raw residuals
(`errors_per_pixel = a[k] * E + b[k] - g_func(data[k, :])`). -/
def rawCol (g : List ℚ) (data : List (List ℚ)) (E : List ℚ) (a b : List ℚ)
    (k : ℕ) : Option (List ℚ) :=
  mapOpt (fun xe => (g_func g xe.1).map fun gx =>
      a.getD k 0 * xe.2 + b.getD k 0 - gx)
    ((data.getD k []).zip E)

/-- Column `k` of the notebook's `pool_errors`: for each pixel of frame `k` in
order, the mean raw residual over that pixel's pool. -/
def poolCol (data : List (List ℚ)) (k : ℕ) (raw : List ℚ) : List ℚ :=
  List.map (fun z =>
      listMean (List.map (fun y => raw.getD y 0) (pool data k z)))
    (data.getD k [])

/-- The notebook's `calc_e` (formulas 11 and 12): the `pool_errors` columns,
one per frame, and `median_errors` with the green-band correction constant
`1.265`. -/
def calc_e (g : List ℚ) (data : List (List ℚ)) (E : List ℚ)
    (a b : List ℚ) : Option (List (List ℚ) × List ℚ) :=
  (mapOpt (fun k => (rawCol g data E a b k).map fun raw =>
      (poolCol data k raw,
        (253/200 : ℚ) * npMedian (List.zipWith (· - ·) raw (poolCol data k raw))))
    (List.range data.length)).map
    (fun cols => (List.map Prod.fst cols, List.map Prod.snd cols))

/-- One summand of `calc_F` (`calc_F_single`): frame `i`'s contribution to the
theoretical error of frame `k`. The notebook returns the scalar `0` for
`i = k`, which the surrounding elementwise sum treats as the zero vector. -/
def calc_F_single (a : List ℚ) (E da db dg w : List ℚ)
    (data : List (List ℚ)) (k i : ℕ) : Option (List ℚ) :=
  if i = k then some (List.replicate (data.getD k []).length 0)
  else
    mapOpt (fun xe => (g_func dg xe.1).map fun dgx =>
        w.getD i 0 * a.getD k 0 / da.getD i 0
          * (dgx - db.getD i 0 - xe.2 * da.getD i 0))
      ((data.getD i []).zip E)

/-- The notebook's `calc_F` (formula 13): the summed per-frame contributions
plus the self-term `(w[k] - 1) * (g_func(data[k, :]) - b[k] - E * a[k])`. -/
def calc_F (g a b : List ℚ) (E da db dg w : List ℚ)
    (data : List (List ℚ)) (k : ℕ) : Option (List ℚ) :=
  (mapOpt (calc_F_single a E da db dg w data k)
    (List.range data.length)).bind fun results =>
  (mapOpt (fun xe => (g_func g xe.1).map fun gx =>
      (w.getD k 0 - 1) * (gx - b.getD k 0 - xe.2 * a.getD k 0))
    ((data.getD k []).zip E)).map fun selfTerm =>
  List.zipWith (· + ·) (vecSum results) selfTerm

/-- The learning rate of the damped update (`LEARN_RATE = 0.1`). -/
def LEARN_RATE : ℚ := 1/10

/-- What the minimizer behind `calc_gradients` can read: the globals of
`calc_total_F_error` at the point of the iteration where it runs. -/
structure SolverInput where
  E : List ℚ
  e : List (List ℚ)
  sigma : List ℚ
  w : List ℚ
  a : List ℚ
  b : List ℚ
  g : List ℚ
  data : List (List ℚ)

/-- The loop state: the persistent parameters `a`, `b`, `g` and the
per-iteration `w` and `sigma`. -/
structure CalibState where
  a : List ℚ
  b : List ℚ
  g : List ℚ
  w : List ℚ
  sigma : List ℚ

/-- One iteration of the notebook's learning loop: irradiance (`calc_E`),
residuals (`calc_e`), the weight update `w = 1 / median_errors` and
`sigma = median_errors`, corrections `(da, db, dg)` from the minimizer
(abstracted as `solver`, since `scipy.optimize.minimize` is external library
code), and the damped update of formula 16. The plotting at the end of the
notebook's loop body is a display side effect outside the computation. -/
def calibStep (solver : SolverInput → List ℚ × List ℚ × List ℚ)
    (data : List (List ℚ)) (st : CalibState) : Option CalibState :=
  (calc_E st.g st.w data st.b st.a).bind fun E =>
  (calc_e st.g data E st.a st.b).map fun em =>
  let w := List.map (fun x => 1 / x) em.2
  let d := solver ⟨E, em.1, em.2, w, st.a, st.b, st.g, data⟩
  { a := List.zipWith (fun x y => x - LEARN_RATE * y) st.a d.1
    b := List.zipWith (fun x y => x - LEARN_RATE * y) st.b d.2.1
    g := List.zipWith (fun x y => x - LEARN_RATE * y) st.g d.2.2
    w := w
    sigma := em.2 }

/-- `N` iterations of the loop (`for j in range(NUM_LEARNING_ITERATIONS)`). -/
def calibLoop (solver : SolverInput → List ℚ × List ℚ × List ℚ)
    (data : List (List ℚ)) : ℕ → CalibState → Option CalibState
  | 0, st => some st
  | n + 1, st => (calibStep solver data st).bind (calibLoop solver data n)

/-- The notebook's `calibrate`: `(apply_g(img) - b) / a` per colour value,
where `apply_g` is the same `g[int(x)]` lookup as `g_func`. -/
def calibrate (img : List ℚ) (a b : ℚ) (g : List ℚ) : Option (List ℚ) :=
  mapOpt (fun x => (g_func g x).map fun gx => (gx - b) / a) img

theorem mapOpt_nil (f : α → Option β) : mapOpt f [] = some [] := rfl

theorem mapOpt_cons (f : α → Option β) (x : α) (xs : List α) :
    mapOpt f (x :: xs)
      = (f x).bind fun y => (mapOpt f xs).map fun ys => y :: ys := rfl

/-- `mapOpt` succeeds exactly when it relates the input and output pointwise. -/
theorem mapOpt_eq_some_iff (f : α → Option β) (l : List α) (ys : List β) :
    mapOpt f l = some ys ↔ List.Forall₂ (fun x y => f x = some y) l ys := by
  induction l generalizing ys with
  | nil =>
    cases ys <;> simp [mapOpt]
  | cons x xs ih =>
    cases ys with
    | nil =>
      simp only [mapOpt_cons, Option.bind_eq_some, Option.map_eq_some']
      constructor
      · rintro ⟨y, _, ys', _, h⟩; cases h
      · intro h; cases h
    | cons y ys' =>
      simp only [mapOpt_cons, Option.bind_eq_some, Option.map_eq_some',
        List.forall₂_cons]
      constructor
      · rintro ⟨y₀, hy₀, ys₀, hys₀, heq⟩
        cases heq
        exact ⟨hy₀, (ih ys').1 hys₀⟩
      · rintro ⟨hy, hys⟩
        exact ⟨y, hy, ys', (ih ys').2 hys, rfl⟩

theorem mapOpt_length (f : α → Option β) (l : List α) (ys : List β)
    (h : mapOpt f l = some ys) : ys.length = l.length :=
  (List.Forall₂.length_eq ((mapOpt_eq_some_iff f l ys).1 h)).symm

theorem mapOpt_isSome (f : α → Option β) (l : List α)
    (h : ∀ x ∈ l, (f x).isSome) : ∃ ys, mapOpt f l = some ys := by
  induction l with
  | nil => exact ⟨[], rfl⟩
  | cons x xs ih =>
    obtain ⟨y, hy⟩ := Option.isSome_iff_exists.1 (h x (List.mem_cons_self x xs))
    obtain ⟨ys, hys⟩ := ih (fun z hz => h z (List.mem_cons_of_mem x hz))
    exact ⟨y :: ys, by simp [mapOpt_cons, hy, hys]⟩

/-- Pointwise description of a successful `mapOpt`, with default-valued
indexing. -/
theorem mapOpt_getD (f : α → Option β) (l : List α) (ys : List β)
    (h : mapOpt f l = some ys) (p : ℕ) (hp : p < l.length)
    (d : α) (d' : β) : f (l.getD p d) = some (ys.getD p d') := by
  have hall := (mapOpt_eq_some_iff f l ys).1 h
  clear h
  induction hall generalizing p with
  | nil => simp at hp
  | cons hxy _ ih =>
    cases p with
    | zero => simpa using hxy
    | succ q =>
      simp only [List.getD_cons_succ]
      exact ih q (by simpa using hp)

/-- If `f` returns the constant `c` on every element of `l`, `mapOpt` returns
the constant list. -/
theorem mapOpt_const (f : α → Option β) (l : List α) (c : β)
    (h : ∀ x ∈ l, f x = some c) :
    mapOpt f l = some (List.replicate l.length c) := by
  induction l with
  | nil => rfl
  | cons x xs ih =>
    simp only [mapOpt_cons, h x (List.mem_cons_self x xs), Option.some_bind,
      ih (fun z hz => h z (List.mem_cons_of_mem x hz)), Option.map_some',
      List.length_cons, List.replicate_succ]

/-- Every output element of a successful `mapOpt` is the image of some input
element. -/
theorem mapOpt_mem (f : α → Option β) (l : List α) (ys : List β)
    (h : mapOpt f l = some ys) : ∀ y ∈ ys, ∃ x ∈ l, f x = some y := by
  have hall := (mapOpt_eq_some_iff f l ys).1 h
  clear h
  induction hall with
  | nil => intro y hy; simp at hy
  | cons hxy _ ih =>
    intro y hy
    rcases List.mem_cons.1 hy with rfl | hy'
    · exact ⟨_, List.mem_cons_self _ _, hxy⟩
    · obtain ⟨x, hx, hfx⟩ := ih y hy'
      exact ⟨x, List.mem_cons_of_mem _ hx, hfx⟩

/-- Indexing a list at a valid position with `get?` hits `getD`. -/
theorem get?_eq_some_getD (l : List ℚ) (n : ℕ) (hn : n < l.length) (d : ℚ) :
    l.get? n = some (l.getD n d) := by
  rw [List.getD_eq_getElem l d hn, List.get?_eq_get hn]
  rfl

/-- An in-range `getD` is a member of the list. -/
theorem getD_mem_of_lt (l : List α) (p : ℕ) (hp : p < l.length) (d : α) :
    l.getD p d ∈ l := by
  rw [List.getD_eq_getElem l d hp]
  exact List.getElem_mem hp

/-- `int(x)` of a nonnegative integer sample is the sample itself. -/
theorem pyIntTrunc_natCast (n : ℕ) : pyIntTrunc (n : ℚ) = n := by
  simp [pyIntTrunc, Nat.cast_nonneg]

/-- On a valid code sample, `g_func` succeeds and returns the curve entry at
the sample's code. -/
theorem g_func_code (g : List ℚ) (hg : g.length = 256) (x : ℚ)
    (hx : validCode x) : g_func g x = some (g.getD (codeIdx x) 0) := by
  obtain ⟨n, hn, rfl⟩ := hx
  have ht : pyIntTrunc (n : ℚ) = n := pyIntTrunc_natCast n
  have hidx : codeIdx (n : ℚ) = n := by simp [codeIdx, ht]
  simp only [g_func, pyGet, ht, hidx]
  rw [if_pos (Int.ofNat_nonneg n)]
  exact get?_eq_some_getD g n (by rw [hg]; exact_mod_cast hn) 0

theorem idCurve_length : idCurve.length = 256 := by
  rw [idCurve, List.length_map, List.length_range]

theorem vecSum_length (vs : List (List ℚ)) (P : ℕ)
    (h : ∀ v ∈ vs, v.length = P) (hne : vs ≠ []) : (vecSum vs).length = P := by
  induction vs with
  | nil => exact absurd rfl hne
  | cons v vs ih =>
    cases vs with
    | nil => exact h v (List.mem_cons_self _ _)
    | cons v' vs' =>
      have hv : v.length = P := h v (List.mem_cons_self _ _)
      have hrec : (vecSum (v' :: vs')).length = P :=
        ih (fun u hu => h u (List.mem_cons_of_mem v hu)) (by simp)
      show (List.zipWith (· + ·) v (vecSum (v' :: vs'))).length = P
      simp [List.length_zipWith, hv, hrec]

/-- Summing equal-length vectors elementwise and then reading a coordinate is
reading the coordinates and summing. -/
theorem vecSum_getD (vs : List (List ℚ)) (P : ℕ)
    (h : ∀ v ∈ vs, v.length = P) (hne : vs ≠ []) (p : ℕ) (hp : p < P) :
    (vecSum vs).getD p 0 = (vs.map (fun v => v.getD p 0)).sum := by
  induction vs with
  | nil => exact absurd rfl hne
  | cons v vs ih =>
    cases vs with
    | nil => simp [vecSum]
    | cons v' vs' =>
      have hv : v.length = P := h v (List.mem_cons_self _ _)
      have hmem : ∀ u ∈ v' :: vs', u.length = P :=
        fun u hu => h u (List.mem_cons_of_mem v hu)
      have hrec := ih hmem (by simp)
      have hlenrec : (vecSum (v' :: vs')).length = P :=
        vecSum_length _ P hmem (by simp)
      show (List.zipWith (· + ·) v (vecSum (v' :: vs'))).getD p 0 = _
      have hplt : p < (List.zipWith (· + ·) v (vecSum (v' :: vs'))).length := by
        simp [List.length_zipWith, hv, hlenrec, hp]
      rw [List.getD_eq_getElem _ _ hplt, List.getElem_zipWith,
        ← List.getD_eq_getElem v 0 (by omega), ← List.getD_eq_getElem _ 0 (by omega),
        List.map_cons, List.sum_cons, hrec]

/-- `calc_E_single` on a frame of valid codes: succeeds and computes
frame `i`'s contribution per pixel. -/
theorem calc_E_single_spec (g w b a : List ℚ) (data : List (List ℚ)) (P : ℕ)
    (hg : g.length = 256) (hP : ∀ f ∈ data, f.length = P)
    (hdata : ∀ f ∈ data, ∀ x ∈ f, validCode x)
    (i : ℕ) (hi : i < data.length) :
    ∃ Ei, calc_E_single g w data b a i = some Ei ∧ Ei.length = P ∧
      ∀ p, p < P → Ei.getD p 0 =
        w.getD i 0 * (g.getD (codeIdx ((data.getD i []).getD p 0)) 0
          - b.getD i 0) / a.getD i 0 := by
  set frame := data.getD i [] with hframe
  have hmem : frame ∈ data := getD_mem_of_lt data i hi []
  have hlen : frame.length = P := hP frame hmem
  have hval : ∀ x ∈ frame, validCode x := hdata frame hmem
  obtain ⟨Ei, hEi⟩ := mapOpt_isSome
    (fun x => (g_func g x).map fun gx =>
      w.getD i 0 * (gx - b.getD i 0) / a.getD i 0) frame
    (fun x hx => by
      simp only [g_func_code g hg x (hval x hx), Option.map_some',
        Option.isSome_some])
  refine ⟨Ei, hEi, by rw [mapOpt_length _ _ _ hEi, hlen], fun p hp => ?_⟩
  have hplt : p < frame.length := by omega
  have := mapOpt_getD _ frame Ei hEi p hplt 0 0
  rw [g_func_code g hg _ (hval _ (getD_mem_of_lt frame p hplt 0))] at this
  simpa using this.symm

/-- C1: `calc_E` computes, at every pixel `p`, the weighted per-frame sum
`Σ_i w[i] * (g[frames[i][p]] - b[i]) / a[i]` (formula 9 of the paper): the
irradiance estimate is exactly the claimed linear combination. -/
theorem calc_E_spec (g w b a : List ℚ) (data : List (List ℚ)) (P : ℕ)
    (hg : g.length = 256)
    (hw : w.length = data.length) (ha : a.length = data.length)
    (hb : b.length = data.length)
    (hP : ∀ f ∈ data, f.length = P)
    (hdata : ∀ f ∈ data, ∀ x ∈ f, validCode x)
    (hanz : ∀ i, i < data.length → a.getD i 0 ≠ 0)
    (hne : data ≠ []) :
    ∃ E, calc_E g w data b a = some E ∧ E.length = P ∧
      ∀ p, p < P → E.getD p 0 =
        ((List.range data.length).map (fun i =>
          w.getD i 0 * (g.getD (codeIdx ((data.getD i []).getD p 0)) 0
            - b.getD i 0) / a.getD i 0)).sum := by
  have hsingle := calc_E_single_spec g w b a data P hg hP hdata
  obtain ⟨Es, hEs⟩ := mapOpt_isSome (calc_E_single g w data b a)
    (List.range data.length)
    (fun i hiMem => by
      obtain ⟨Ei, hEi, _, _⟩ := hsingle i (List.mem_range.1 hiMem)
      rw [hEi]; rfl)
  have hEslen : Es.length = data.length := by
    rw [mapOpt_length _ _ _ hEs, List.length_range]
  have hmemlen : ∀ v ∈ Es, v.length = P := by
    intro v hv
    obtain ⟨i, hiMem, hfi⟩ := mapOpt_mem _ _ _ hEs v hv
    obtain ⟨Ei, hEi, hEilen, _⟩ := hsingle i (List.mem_range.1 hiMem)
    rw [hEi] at hfi
    rw [Option.some_inj.1 hfi] at hEilen
    exact hEilen
  have hEsne : Es ≠ [] := by
    intro hcon
    rw [hcon] at hEslen
    exact hne (List.length_eq_zero.1 hEslen.symm)
  refine ⟨vecSum Es, ?_, vecSum_length Es P hmemlen hEsne, fun p hp => ?_⟩
  · rw [calc_E, hEs]; rfl
  rw [vecSum_getD Es P hmemlen hEsne p hp]
  congr 1
  apply List.ext_getElem
  · simp [hEslen]
  intro j hj hj'
  have hjF : j < data.length := by simpa [hEslen] using hj
  have hrange : (List.range data.length).getD j 0 = j := by
    rw [List.getD_eq_getElem _ _ (by simpa using hjF), List.getElem_range]
  have hmap := mapOpt_getD (calc_E_single g w data b a)
    (List.range data.length) Es hEs j (by simpa using hjF) 0 []
  rw [hrange] at hmap
  obtain ⟨Ej, hEj, hEjlen, hEjval⟩ := hsingle j hjF
  rw [hEj] at hmap
  have hEsj : Es.getD j [] = Ej := (Option.some_inj.1 hmap).symm
  rw [List.getElem_map, List.getElem_map, List.getElem_range,
    ← List.getD_eq_getElem Es [] (by omega), hEsj]
  exact hEjval p hp

/-- Witness instantiating `calc_E_spec` on a concrete two-frame set. -/
theorem calc_E_spec_witness :
    ∃ E, calc_E idCurve [1/2, 1/2] [[(0:ℚ),0,0,2],[0,0,2,0]] [0,0] [1,1]
        = some E ∧
      E.length = 4 ∧
      ∀ p, p < 4 → E.getD p 0 =
        ((List.range ([[(0:ℚ),0,0,2],[0,0,2,0]] : List (List ℚ)).length).map
          (fun i =>
            [(1:ℚ)/2, 1/2].getD i 0 *
              (idCurve.getD
                  (codeIdx ((([[(0:ℚ),0,0,2],[0,0,2,0]] :
                    List (List ℚ)).getD i []).getD p 0)) 0
                - [(0:ℚ),0].getD i 0) / [(1:ℚ),1].getD i 0)).sum :=
  calc_E_spec idCurve [1/2, 1/2] [0,0] [1,1] [[0,0,0,2],[0,0,2,0]] 4
    idCurve_length rfl rfl rfl
    (by decide)
    (by
      intro f hf x hx
      have hx2 : x = 0 ∨ x = 2 := by
        fin_cases hf <;> fin_cases hx <;> norm_num
      rcases hx2 with rfl | rfl
      · exact ⟨0, by norm_num⟩
      · exact ⟨2, by norm_num⟩)
    (by decide) (by simp)

theorem codeIdx_natCast (n : ℕ) : codeIdx (n : ℚ) = n := by
  simp [codeIdx, pyIntTrunc_natCast]

theorem idCurve_getD (n : ℕ) (hn : n < 256) : idCurve.getD n 0 = (n : ℚ) := by
  have hlt : n < idCurve.length := by rw [idCurve_length]; exact hn
  rw [List.getD_eq_getElem _ _ hlt]
  simp [idCurve]

theorem g_func_idCurve_nat (n : ℕ) (hn : n < 256) :
    g_func idCurve (n : ℚ) = some (n : ℚ) := by
  rw [g_func_code idCurve idCurve_length _ ⟨n, hn, rfl⟩, codeIdx_natCast,
    idCurve_getD n hn]

/-- C8: `calibrate` with gain 1, bias 0 and the identity response curve maps
any frame of integer codes in `[0, 255]` to itself. -/
theorem calibrate_identity (img : List ℚ) (himg : ∀ x ∈ img, validCode x) :
    calibrate img 1 0 idCurve = some img := by
  rw [calibrate, mapOpt_eq_some_iff, List.forall₂_same]
  intro x hx
  obtain ⟨n, hn, rfl⟩ := himg x hx
  rw [g_func_idCurve_nat n hn]
  simp

/-- Witness: `calibrate` at the identity parameters fixes `[0, 255, 17]`. -/
theorem calibrate_identity_witness :
    calibrate [0, 255, 17] 1 0 idCurve = some [0, 255, 17] :=
  calibrate_identity [0, 255, 17] (by
    intro x hx
    fin_cases hx
    · exact ⟨0, by norm_num⟩
    · exact ⟨255, by norm_num⟩
    · exact ⟨17, by norm_num⟩)

theorem pyIntTrunc_neg_half : pyIntTrunc (-1/2 : ℚ) = 0 := by
  rw [pyIntTrunc, if_neg (by norm_num), Int.ceil_eq_zero_iff]
  constructor <;> norm_num

/-- C9 counterexample: the sample `-1/2` satisfies `-256 ≤ x < 0`, yet the
lookup does not return the entry at index `256 + int(x)`: truncation toward
zero gives `int(-1/2) = 0`, so `g[0]` is returned, while index `256 + 0` is
out of range. -/
theorem g_func_wrap_cex :
    ((-256 : ℚ) ≤ -1/2 ∧ (-1/2 : ℚ) < 0) ∧
    g_func idCurve (-1/2) ≠ idCurve.get? (256 + pyIntTrunc (-1/2 : ℚ)).toNat := by
  refine ⟨⟨by norm_num, by norm_num⟩, ?_⟩
  have h1 : g_func idCurve (-1/2) = some 0 := by
    rw [g_func, pyIntTrunc_neg_half]
    show pyGet idCurve 0 = some 0
    rw [pyGet, if_pos le_rfl, Int.toNat_zero,
      get?_eq_some_getD idCurve 0 (by rw [idCurve_length]; norm_num) 0,
      idCurve_getD 0 (by norm_num)]
    norm_num
  have h2 : idCurve.get? ((256 : ℤ) + pyIntTrunc (-1/2 : ℚ)).toNat = none := by
    rw [pyIntTrunc_neg_half, List.get?_eq_none, idCurve_length]
    norm_num
  rw [h1, h2]
  simp

/-- C9 amended: for a sample `x` with `-256 ≤ x ≤ -1` the lookup wraps to the
entry at index `256 + int(x)`; for `-1 < x < 0` truncation toward zero gives
`int(x) = 0`, so entry 0 is returned; and for any `x ≥ -256` the lookup fails
exactly when `int(x) ≥ 256`. -/
theorem g_func_wrap (g : List ℚ) (hg : g.length = 256) (x : ℚ) :
    (-256 ≤ x → x ≤ -1 → g_func g x = g.get? (256 + pyIntTrunc x).toNat) ∧
    ((-1 : ℚ) < x → x < 0 → g_func g x = g.get? 0) ∧
    (-256 ≤ x → (g_func g x = none ↔ 256 ≤ pyIntTrunc x)) := by
  refine ⟨?_, ?_, ?_⟩
  · intro hx1 hx2
    have hnneg : ¬ (0 ≤ x) := by intro h; linarith
    have hup : ⌈x⌉ ≤ -1 := by
      have := Int.ceil_le.2 (show x ≤ ((-1 : ℤ) : ℚ) by push_cast; linarith)
      simpa using this
    have hlow : (-256 : ℤ) ≤ ⌈x⌉ := by
      have h1 : (-256 : ℚ) ≤ (⌈x⌉ : ℚ) := le_trans hx1 (Int.le_ceil x)
      exact_mod_cast h1
    rw [g_func, pyIntTrunc, if_neg hnneg, pyGet, if_neg (by omega)]
    rw [if_pos (by rw [hg]; omega)]
    congr 1
    rw [hg]
    omega
  · intro hx1 hx2
    have hnneg : ¬ (0 ≤ x) := by intro h; linarith
    have hceil : ⌈x⌉ = 0 := Int.ceil_eq_zero_iff.2 ⟨hx1, le_of_lt hx2⟩
    rw [g_func, pyIntTrunc, if_neg hnneg, hceil, pyGet, if_pos le_rfl,
      Int.toNat_zero]
  · intro hx1
    by_cases h0 : 0 ≤ x
    · have hfl : (0 : ℤ) ≤ ⌊x⌋ := Int.floor_nonneg.2 h0
      rw [g_func, pyIntTrunc, if_pos h0, pyGet, if_pos hfl,
        List.get?_eq_none, hg]
      generalize hgen : (⌊x⌋ : ℤ) = m
      rw [hgen] at hfl
      omega
    · have hup : ⌈x⌉ ≤ 0 := by
        have : x ≤ ((0 : ℤ) : ℚ) := by push_cast; linarith [le_of_not_le h0]
        exact Int.ceil_le.2 this
      have hlow : (-256 : ℤ) ≤ ⌈x⌉ := by
        have h1 : (-256 : ℚ) ≤ (⌈x⌉ : ℚ) := le_trans hx1 (Int.le_ceil x)
        exact_mod_cast h1
      rw [g_func, pyIntTrunc, if_neg h0, pyGet]
      by_cases hc : 0 ≤ ⌈x⌉
      · rw [if_pos hc, List.get?_eq_none, hg]
        omega
      · rw [if_neg hc, if_pos (by rw [hg]; omega), List.get?_eq_none, hg]
        omega

/-- Witness: the wrap-around lookup at the sample `-2` on the identity curve,
together with the failure criterion at `-2`. -/
theorem g_func_wrap_witness :
    g_func idCurve (-2) = idCurve.get? (256 + pyIntTrunc (-2 : ℚ)).toNat ∧
    g_func idCurve (-2) ≠ none := by
  constructor
  · exact (g_func_wrap idCurve idCurve_length (-2)).1 (by norm_num) (by norm_num)
  · intro hnone
    have hcon :=
      ((g_func_wrap idCurve idCurve_length (-2)).2.2 (by norm_num)).1 hnone
    have h1 : pyIntTrunc (-2 : ℚ) = -2 := by
      rw [pyIntTrunc, if_neg (by norm_num)]
      exact_mod_cast Int.ceil_intCast (α := ℚ) (-2)
    rw [h1] at hcon
    norm_num at hcon

/-- If two lists have the same length and `f` agrees on corresponding
elements, `mapOpt f` agrees on them. -/
theorem mapOpt_congr (f : α → Option β) (l1 l2 : List α) (d : α)
    (hlen : l1.length = l2.length)
    (h : ∀ p, p < l1.length → f (l1.getD p d) = f (l2.getD p d)) :
    mapOpt f l1 = mapOpt f l2 := by
  induction l1 generalizing l2 with
  | nil =>
    cases l2 with
    | nil => rfl
    | cons y ys => simp at hlen
  | cons x xs ih =>
    cases l2 with
    | nil => simp at hlen
    | cons y ys =>
      have h0 := h 0 (by simp)
      simp only [List.getD_cons_zero] at h0
      rw [mapOpt_cons, mapOpt_cons, h0,
        ih ys (by simpa using hlen) (fun p hp => by
          have := h (p + 1) (by simpa using Nat.succ_lt_succ hp)
          simpa using this)]

/-- C10: for nonnegative samples the lookup truncates toward zero, i.e. uses
the floor as index, so all samples in a unit interval `[n, n+1)` read the same
curve entry; consequently `calibrate` returns the same output on any two
frames whose samples lie pairwise in the same unit intervals of `[0, 256)`. -/
theorem calibrate_floor_classes (g : List ℚ) (a b : ℚ) (img1 img2 : List ℚ)
    (hlen : img1.length = img2.length)
    (hsame : ∀ p, p < img1.length →
      0 ≤ img1.getD p 0 ∧ img1.getD p 0 < 256 ∧ 0 ≤ img2.getD p 0 ∧
        img2.getD p 0 < 256 ∧ ⌊img1.getD p 0⌋ = ⌊img2.getD p 0⌋) :
    (∀ x : ℚ, 0 ≤ x → g_func g x = g.get? ⌊x⌋.toNat) ∧
    calibrate img1 a b g = calibrate img2 a b g := by
  have hfl : ∀ x : ℚ, 0 ≤ x → g_func g x = g.get? ⌊x⌋.toNat := by
    intro x hx
    rw [g_func, pyIntTrunc, if_pos hx, pyGet, if_pos (Int.floor_nonneg.2 hx)]
  refine ⟨hfl, ?_⟩
  rw [calibrate, calibrate]
  apply mapOpt_congr _ _ _ 0 hlen
  intro p hp
  obtain ⟨h1, h2, h3, h4, h5⟩ := hsame p hp
  have hgf : g_func g (img1.getD p 0) = g_func g (img2.getD p 0) := by
    rw [hfl _ h1, hfl _ h3, h5]
  simp only [hgf]

/-- Witness: two frames whose samples share unit intervals calibrate
identically. -/
theorem calibrate_floor_classes_witness :
    (∀ x : ℚ, 0 ≤ x → g_func idCurve x = idCurve.get? ⌊x⌋.toNat) ∧
    calibrate [1/2, 3/2] 2 1 idCurve = calibrate [3/4, 5/4] 2 1 idCurve :=
  calibrate_floor_classes idCurve 2 1 [1/2, 3/2] [3/4, 5/4] rfl
    (by
      intro p hp
      simp only [List.length_cons, List.length_nil] at hp
      interval_cases p <;>
        exact ⟨by norm_num, by norm_num, by norm_num, by norm_num, by norm_num⟩)

/-- C7: running the calibration loop for zero iterations returns the model --
gain vector, bias vector, response curve (and auxiliary state) -- unchanged. -/
theorem calibLoop_zero (solver : SolverInput → List ℚ × List ℚ × List ℚ)
    (data : List (List ℚ)) (st : CalibState) :
    calibLoop solver data 0 st = some st := rfl

/-- `getD` through `map`, at an in-range index. -/
theorem getD_map_poly (f : α → β) (l : List α) (k : ℕ) (hk : k < l.length)
    (d : α) (d' : β) : (List.map f l).getD k d' = f (l.getD k d) := by
  rw [List.getD_eq_getElem _ _ (by simpa using hk), List.getElem_map,
    List.getD_eq_getElem _ _ hk]

/-- `getD` through `zip`, at an index in range of both lists. -/
theorem getD_zip (l1 : List α) (l2 : List β) (p : ℕ)
    (h1 : p < l1.length) (h2 : p < l2.length) (d1 : α) (d2 : β) :
    (l1.zip l2).getD p (d1, d2) = (l1.getD p d1, l2.getD p d2) := by
  have hp : p < (l1.zip l2).length := by
    rw [List.length_zip]
    exact lt_min h1 h2
  rw [List.getD_eq_getElem _ _ hp, List.getElem_zip,
    List.getD_eq_getElem _ _ h1, List.getD_eq_getElem _ _ h2]

theorem getD_replicate (c : ℚ) (n p : ℕ) :
    (List.replicate n c).getD p c = c := by
  induction n generalizing p with
  | zero => simp
  | succ m ih =>
    cases p with
    | zero => simp [List.replicate_succ]
    | succ q => simp [List.replicate_succ, ih]

/-- `calc_E_single` never fails on valid-code frames (no shape assumptions
needed: out-of-range parameter indexing defaults are never exercised by the
lookups). -/
theorem calc_E_single_isSome (g w b a : List ℚ) (data : List (List ℚ))
    (hg : g.length = 256) (hdata : ∀ f ∈ data, ∀ x ∈ f, validCode x)
    (i : ℕ) (hi : i < data.length) :
    ∃ Ei, calc_E_single g w data b a i = some Ei :=
  mapOpt_isSome _ _ (fun x hx => by
    simp only [g_func_code g hg x
        (hdata _ (getD_mem_of_lt data i hi []) x hx),
      Option.map_some', Option.isSome_some])

/-- `calc_E` never fails on valid-code frames: there is no gain check and no
failure path other than the curve lookup. -/
theorem calc_E_isSome (g w b a : List ℚ) (data : List (List ℚ))
    (hg : g.length = 256) (hdata : ∀ f ∈ data, ∀ x ∈ f, validCode x) :
    ∃ E, calc_E g w data b a = some E := by
  obtain ⟨Es, hEs⟩ := mapOpt_isSome (calc_E_single g w data b a)
    (List.range data.length)
    (fun i hiMem => by
      obtain ⟨Ei, hEi⟩ := calc_E_single_isSome g w b a data hg hdata i
        (List.mem_range.1 hiMem)
      rw [hEi]; rfl)
  exact ⟨vecSum Es, by rw [calc_E, hEs]; rfl⟩

/-- `rawCol` never fails on valid-code frames. -/
theorem rawCol_isSome (g : List ℚ) (data : List (List ℚ)) (E a b : List ℚ)
    (hg : g.length = 256) (hdata : ∀ f ∈ data, ∀ x ∈ f, validCode x)
    (k : ℕ) (hk : k < data.length) :
    ∃ raw, rawCol g data E a b k = some raw :=
  mapOpt_isSome _ _ (fun xe hxe => by
    obtain ⟨hx, _⟩ := List.of_mem_zip hxe
    simp only [g_func_code g hg xe.1
        (hdata _ (getD_mem_of_lt data k hk []) xe.1 hx),
      Option.map_some', Option.isSome_some])

/-- `calc_e` never fails on valid-code frames. -/
theorem calc_e_isSome (g : List ℚ) (data : List (List ℚ)) (E a b : List ℚ)
    (hg : g.length = 256) (hdata : ∀ f ∈ data, ∀ x ∈ f, validCode x) :
    ∃ cols med, calc_e g data E a b = some (cols, med) := by
  obtain ⟨pairs, hpairs⟩ := mapOpt_isSome
    (fun k => (rawCol g data E a b k).map fun raw =>
      (poolCol data k raw,
        (253/200 : ℚ) * npMedian (List.zipWith (· - ·) raw (poolCol data k raw))))
    (List.range data.length)
    (fun k hkMem => by
      obtain ⟨raw, hraw⟩ := rawCol_isSome g data E a b hg hdata k
        (List.mem_range.1 hkMem)
      simp only [hraw, Option.map_some', Option.isSome_some])
  exact ⟨List.map Prod.fst pairs, List.map Prod.snd pairs,
    by rw [calc_e, hpairs]; rfl⟩

/-- C5: in each calibration iteration (one `calibStep`), once irradiance and
residuals are computed, the next-iteration weight for each frame `k` is
`1 / median_errors[k]`, and the persistent parameters receive the damped
update `a -= LEARN_RATE * da`, `b -= LEARN_RATE * db`, `g -= LEARN_RATE * dg`
with the corrections returned by the solver. -/
theorem calibStep_spec (solver : SolverInput → List ℚ × List ℚ × List ℚ)
    (data : List (List ℚ)) (st : CalibState) (E : List ℚ)
    (cols : List (List ℚ)) (med : List ℚ)
    (hE : calc_E st.g st.w data st.b st.a = some E)
    (he : calc_e st.g data E st.a st.b = some (cols, med)) :
    ∃ st', calibStep solver data st = some st' ∧
      (∀ k, k < med.length → st'.w.getD k 0 = 1 / med.getD k 0) ∧
      st'.sigma = med ∧
      st'.a = List.zipWith (fun x y => x - LEARN_RATE * y) st.a
        (solver ⟨E, cols, med, List.map (fun x => 1 / x) med,
          st.a, st.b, st.g, data⟩).1 ∧
      st'.b = List.zipWith (fun x y => x - LEARN_RATE * y) st.b
        (solver ⟨E, cols, med, List.map (fun x => 1 / x) med,
          st.a, st.b, st.g, data⟩).2.1 ∧
      st'.g = List.zipWith (fun x y => x - LEARN_RATE * y) st.g
        (solver ⟨E, cols, med, List.map (fun x => 1 / x) med,
          st.a, st.b, st.g, data⟩).2.2 := by
  have hstep : calibStep solver data st = some
      { a := List.zipWith (fun x y => x - LEARN_RATE * y) st.a
          (solver ⟨E, cols, med, List.map (fun x => 1 / x) med,
            st.a, st.b, st.g, data⟩).1
        b := List.zipWith (fun x y => x - LEARN_RATE * y) st.b
          (solver ⟨E, cols, med, List.map (fun x => 1 / x) med,
            st.a, st.b, st.g, data⟩).2.1
        g := List.zipWith (fun x y => x - LEARN_RATE * y) st.g
          (solver ⟨E, cols, med, List.map (fun x => 1 / x) med,
            st.a, st.b, st.g, data⟩).2.2
        w := List.map (fun x => 1 / x) med
        sigma := med } := by
    rw [calibStep, hE, Option.some_bind, he]
    rfl
  refine ⟨_, hstep, ?_, rfl, rfl, rfl, rfl⟩
  intro k hk
  exact getD_map_poly (fun x => 1 / x) med k hk 0 0

/-- Witness: one step on a concrete two-frame input, with a solver returning
zero corrections. -/
theorem calibStep_spec_witness :
    ∃ E cols med st',
      calc_E idCurve [1/2, 1/2] [[(0:ℚ),0,0,2],[0,0,2,0]] [0,0] [1,1]
          = some E ∧
      calc_e idCurve [[(0:ℚ),0,0,2],[0,0,2,0]] E [1,1] [0,0]
          = some (cols, med) ∧
      calibStep (fun _ => ([0,0], [0,0], List.replicate 256 0))
          [[(0:ℚ),0,0,2],[0,0,2,0]]
          ⟨[1,1], [0,0], idCurve, [1/2,1/2], [1,1]⟩ = some st' ∧
      (∀ k, k < med.length → st'.w.getD k 0 = 1 / med.getD k 0) ∧
      st'.sigma = med := by
  have hval : ∀ f ∈ ([[(0:ℚ),0,0,2],[0,0,2,0]] : List (List ℚ)),
      ∀ x ∈ f, validCode x := by
    intro f hf x hx
    have hx2 : x = 0 ∨ x = 2 := by
      fin_cases hf <;> fin_cases hx <;> norm_num
    rcases hx2 with rfl | rfl
    · exact ⟨0, by norm_num⟩
    · exact ⟨2, by norm_num⟩
  obtain ⟨E, hE⟩ := calc_E_isSome idCurve [1/2, 1/2] [0,0] [1,1]
    [[(0:ℚ),0,0,2],[0,0,2,0]] idCurve_length hval
  obtain ⟨cols, med, he⟩ := calc_e_isSome idCurve
    [[(0:ℚ),0,0,2],[0,0,2,0]] E [1,1] [0,0] idCurve_length hval
  obtain ⟨st', hst', hw, hsig, _, _, _⟩ := calibStep_spec
    (fun _ => ([0,0], [0,0], List.replicate 256 0))
    [[(0:ℚ),0,0,2],[0,0,2,0]]
    ⟨[1,1], [0,0], idCurve, [1/2,1/2], [1,1]⟩ E cols med hE he
  exact ⟨E, cols, med, st', hE, he, hst', hw, hsig⟩

/-- Membership in a pool: the position is in range and its value is at
absolute distance strictly less than `eps` from `z`. -/
theorem pool_mem_iff (data : List (List ℚ)) (k : ℕ) (z eps : ℚ) (i : ℕ) :
    i ∈ pool data k z eps ↔
      i < (data.getD k []).length ∧
        |(data.getD k []).getD i 0 - z| < eps := by
  rw [pool, List.mem_filter, List.mem_range]
  simp only [decide_eq_true_eq]

theorem pool_mem_lt (data : List (List ℚ)) (k : ℕ) (z eps : ℚ) (i : ℕ)
    (hi : i ∈ pool data k z eps) : i < (data.getD k []).length :=
  ((pool_mem_iff data k z eps i).1 hi).1

/-- C3 counterexample: frame `[0, 1]`, tolerance 1. Position 1 is at absolute
distance exactly 1 from pixel 0's value -- within the claimed "at most the
tolerance" -- yet the pool of pixel 0 excludes it: membership is strict. -/
theorem pool_cex :
    pool [[0, 1]] 0 0 1 = [0] ∧
    |([[(0:ℚ), 1]].getD 0 []).getD 1 0 - ([[(0:ℚ), 1]].getD 0 []).getD 0 0|
      ≤ 1 := by
  constructor
  · rw [pool]
    norm_num [show List.range 2 = [0, 1] from rfl, List.filter]
  · norm_num

/-- C3 amended: for every frame `k`, pixel `p` and positive tolerance, the
pool of `p` is exactly the set of positions of frame `k` whose value is at
absolute distance strictly less than the tolerance from `p`'s value (positions
at distance exactly the tolerance are excluded); the pool always contains `p`
itself and is therefore never empty. -/
theorem pool_spec (data : List (List ℚ)) (k p : ℕ) (eps : ℚ)
    (heps : 0 < eps) (hk : k < data.length)
    (hp : p < (data.getD k []).length) :
    (∀ i, i ∈ pool data k ((data.getD k []).getD p 0) eps ↔
      (i < (data.getD k []).length ∧
        |(data.getD k []).getD i 0 - (data.getD k []).getD p 0| < eps)) ∧
    p ∈ pool data k ((data.getD k []).getD p 0) eps ∧
    pool data k ((data.getD k []).getD p 0) eps ≠ [] := by
  have hself : p ∈ pool data k ((data.getD k []).getD p 0) eps := by
    rw [pool_mem_iff]
    exact ⟨hp, by simpa using heps⟩
  exact ⟨fun i => pool_mem_iff data k _ eps i, hself,
    List.ne_nil_of_mem hself⟩

/-- Witness: the pool of pixel 0 in the frame `[0, 1]` with tolerance 1. -/
theorem pool_spec_witness :
    (∀ i, i ∈ pool [[0, 1]] 0 (([[(0:ℚ), 1]].getD 0 []).getD 0 0) 1 ↔
      (i < ([[(0:ℚ), 1]].getD 0 []).length ∧
        |([[(0:ℚ), 1]].getD 0 []).getD i 0
          - ([[(0:ℚ), 1]].getD 0 []).getD 0 0| < 1)) ∧
    0 ∈ pool [[0, 1]] 0 (([[(0:ℚ), 1]].getD 0 []).getD 0 0) 1 ∧
    pool [[0, 1]] 0 (([[(0:ℚ), 1]].getD 0 []).getD 0 0) 1 ≠ [] :=
  pool_spec [[0, 1]] 0 0 1 (by norm_num) (by norm_num) (by norm_num)

/-- C6 counterexample: `calc_E` contains no gain check and no
`DegenerateParameterError`: on an input whose gain vector is `[0]` it still
returns a value instead of failing before the division. -/
theorem calc_E_zero_gain_cex :
    (calc_E idCurve [1] [[5]] [0] [0]).isSome = true := by
  obtain ⟨E, hE⟩ := calc_E_isSome idCurve [1] [0] [0] [[5]] idCurve_length
    (by
      intro f hf x hx
      fin_cases hf
      fin_cases hx
      exact ⟨5, by norm_num⟩)
  rw [hE]
  rfl

/-- C6 amended: `calc_E` performs no check on the gain vector: on any
valid-code input it returns a value even when a gain entry is zero -- the
division is carried out (numpy division-by-zero semantics), and no error is
raised before it. -/
theorem calc_E_zero_gain (g w b a : List ℚ) (data : List (List ℚ))
    (hg : g.length = 256) (hdata : ∀ f ∈ data, ∀ x ∈ f, validCode x)
    (i : ℕ) (hi : i < a.length) (hzero : a.getD i 0 = 0) :
    ∃ E, calc_E g w data b a = some E :=
  calc_E_isSome g w b a data hg hdata

/-- Witness: a zero gain entry, and `calc_E` still succeeds. -/
theorem calc_E_zero_gain_witness :
    ([(0:ℚ)].getD 0 0 = 0) ∧ ∃ E, calc_E idCurve [2] [[7]] [1] [0] = some E :=
  ⟨rfl, calc_E_zero_gain idCurve [2] [1] [0] [[7]] idCurve_length
    (by
      intro f hf x hx
      fin_cases hf
      fin_cases hx
      exact ⟨7, by norm_num⟩)
    0 (by norm_num) rfl⟩

theorem zipWith_add_replicate_zero (n : ℕ) :
    List.zipWith (· + ·) (List.replicate n (0:ℚ)) (List.replicate n 0)
      = List.replicate n 0 := by
  induction n with
  | zero => rfl
  | succ m ih => simp [List.replicate_succ, ih]

theorem vecSum_replicate_zero (n P : ℕ) :
    vecSum (List.replicate (n + 1) (List.replicate P (0:ℚ)))
      = List.replicate P 0 := by
  induction n with
  | zero => rfl
  | succ m ih =>
    show List.zipWith (· + ·) (List.replicate P 0)
        (vecSum (List.replicate (m + 1) (List.replicate P (0:ℚ))))
      = List.replicate P 0
    rw [ih, zipWith_add_replicate_zero]

/-- C4: `calc_F` at the identity/no-correction point `da = 1, db = 0, dg = 0`,
with `w[k] = 1` and all other weights 0, is the zero vector: every other
frame's contribution carries the factor `w[i] = 0` and the self-term carries
`w[k] - 1 = 0`. -/
theorem calc_F_identity (g a b E w : List ℚ) (data : List (List ℚ)) (P k : ℕ)
    (hg : g.length = 256) (hk : k < data.length)
    (hP : ∀ f ∈ data, f.length = P) (hE : E.length = P)
    (hdata : ∀ f ∈ data, ∀ x ∈ f, validCode x)
    (hwk : w.getD k 0 = 1)
    (hw0 : ∀ i, i < data.length → i ≠ k → w.getD i 0 = 0) :
    calc_F g a b E (List.replicate data.length 1)
      (List.replicate data.length 0) (List.replicate 256 0) w data k
      = some (List.replicate P 0) := by
  have hframe : (data.getD k []).length = P := hP _ (getD_mem_of_lt data k hk [])
  have hsingle : ∀ i ∈ List.range data.length,
      calc_F_single a E (List.replicate data.length 1)
        (List.replicate data.length 0) (List.replicate 256 0) w data k i
        = some (List.replicate P 0) := by
    intro i hiMem
    have hi : i < data.length := List.mem_range.1 hiMem
    by_cases hik : i = k
    · subst hik
      rw [calc_F_single, if_pos rfl, hframe]
    · have hilen : ((data.getD i []).zip E).length = P := by
        rw [List.length_zip, hP _ (getD_mem_of_lt data i hi []), hE, min_self]
      have harg : ∀ xe ∈ (data.getD i []).zip E,
          (fun xe : ℚ × ℚ => (g_func (List.replicate 256 0) xe.1).map fun dgx =>
            w.getD i 0 * a.getD k 0
              / (List.replicate data.length (1:ℚ)).getD i 0
              * (dgx - (List.replicate data.length (0:ℚ)).getD i 0
                - xe.2 * (List.replicate data.length (1:ℚ)).getD i 0)) xe
            = some 0 := by
        intro xe hxe
        obtain ⟨x, e⟩ := xe
        obtain ⟨hx1, _⟩ := List.of_mem_zip hxe
        dsimp only
        rw [g_func_code (List.replicate 256 0) (by rw [List.length_replicate]) x
          (hdata _ (getD_mem_of_lt data i hi []) x hx1)]
        simp only [Option.map_some', hw0 i hi hik, zero_mul, zero_div]
      have hconst := mapOpt_const _ ((data.getD i []).zip E) 0 harg
      rw [calc_F_single, if_neg hik, hconst, hilen]
  have hmap := mapOpt_const _ (List.range data.length) _ hsingle
  rw [List.length_range] at hmap
  have hklen : ((data.getD k []).zip E).length = P := by
    rw [List.length_zip, hframe, hE, min_self]
  have hargSelf : ∀ xe ∈ (data.getD k []).zip E,
      (fun xe : ℚ × ℚ => (g_func g xe.1).map fun gx =>
        (w.getD k 0 - 1) * (gx - b.getD k 0 - xe.2 * a.getD k 0)) xe
        = some 0 := by
    intro xe hxe
    obtain ⟨x, e⟩ := xe
    obtain ⟨hx1, _⟩ := List.of_mem_zip hxe
    dsimp only
    rw [g_func_code g hg x (hdata _ (getD_mem_of_lt data k hk []) x hx1)]
    simp only [Option.map_some', hwk, sub_self, zero_mul]
  have hself := mapOpt_const _ ((data.getD k []).zip E) 0 hargSelf
  rw [hklen] at hself
  obtain ⟨m, hm⟩ : ∃ m, data.length = m + 1 := ⟨data.length - 1, by omega⟩
  rw [calc_F, hmap, Option.some_bind, hself, Option.map_some', hm,
    vecSum_replicate_zero, zipWith_add_replicate_zero]

/-- Witness: the identity point on a concrete two-frame input with weight
concentrated on frame 0. -/
theorem calc_F_identity_witness :
    calc_F idCurve [1, 1] [0, 0] [0] (List.replicate 2 1)
      (List.replicate 2 0) (List.replicate 256 0) [1, 0] [[(0:ℚ)], [2]] 0
      = some (List.replicate 1 0) :=
  calc_F_identity idCurve [1, 1] [0, 0] [0] [1, 0] [[(0:ℚ)], [2]] 1 0
    idCurve_length (by norm_num)
    (by
      intro f hf
      fin_cases hf <;> rfl)
    rfl
    (by
      intro f hf x hx
      fin_cases hf <;> fin_cases hx
      · exact ⟨0, by norm_num⟩
      · exact ⟨2, by norm_num⟩)
    rfl
    (by
      intro i hi hne
      have hi2 : i < 2 := by simpa using hi
      interval_cases i
      · exact absurd rfl hne
      · rfl)

/-- `rawCol` on valid inputs: frame `k`'s raw residual at pixel `p` is
`a[k] * E[p] + b[k] - g[frames[k][p]]`. -/
theorem rawCol_spec (g : List ℚ) (data : List (List ℚ)) (E a b : List ℚ)
    (P k : ℕ) (hg : g.length = 256)
    (hP : ∀ f ∈ data, f.length = P) (hE : E.length = P)
    (hdata : ∀ f ∈ data, ∀ x ∈ f, validCode x) (hk : k < data.length) :
    ∃ raw, rawCol g data E a b k = some raw ∧ raw.length = P ∧
      ∀ p, p < P → raw.getD p 0 =
        a.getD k 0 * E.getD p 0 + b.getD k 0
          - g.getD (codeIdx ((data.getD k []).getD p 0)) 0 := by
  have hframe : (data.getD k []).length = P := hP _ (getD_mem_of_lt data k hk [])
  have hziplen : ((data.getD k []).zip E).length = P := by
    rw [List.length_zip, hframe, hE, min_self]
  obtain ⟨raw, hraw⟩ := rawCol_isSome g data E a b hg hdata k hk
  refine ⟨raw, hraw, by rw [mapOpt_length _ _ _ hraw, hziplen], fun p hp => ?_⟩
  have hgetzip : ((data.getD k []).zip E).getD p (0, 0)
      = ((data.getD k []).getD p 0, E.getD p 0) :=
    getD_zip _ _ p (by omega) (by omega) 0 0
  have hmk := mapOpt_getD _ _ _ hraw p (by omega) (0, 0) 0
  rw [hgetzip] at hmk
  dsimp only at hmk
  rw [g_func_code g hg _ (hdata _ (getD_mem_of_lt data k hk []) _
    (getD_mem_of_lt _ p (by omega) 0))] at hmk
  simpa using hmk.symm

/-- C2: `calc_e` computes, for each frame `k`, the raw residual
`a[k]*E[p] + b[k] - g[frames[k][p]]` at each pixel, sets the pooled residual
of pixel `p` to the mean raw residual over `p`'s pool, and returns
`1.265 * median(raw - pooled)` as frame `k`'s error scale. -/
theorem calc_e_spec (g : List ℚ) (data : List (List ℚ)) (E a b : List ℚ)
    (P : ℕ) (hg : g.length = 256)
    (hP : ∀ f ∈ data, f.length = P) (hE : E.length = P)
    (hdata : ∀ f ∈ data, ∀ x ∈ f, validCode x) :
    ∃ cols med, calc_e g data E a b = some (cols, med) ∧
      cols.length = data.length ∧ med.length = data.length ∧
      ∀ k, k < data.length →
        (∀ p, p < P → (cols.getD k []).getD p 0 =
          listMean (List.map
            (fun y => a.getD k 0 * E.getD y 0 + b.getD k 0
              - g.getD (codeIdx ((data.getD k []).getD y 0)) 0)
            (pool data k ((data.getD k []).getD p 0)))) ∧
        med.getD k 0 = 253/200 * npMedian ((List.range P).map (fun p =>
          (a.getD k 0 * E.getD p 0 + b.getD k 0
            - g.getD (codeIdx ((data.getD k []).getD p 0)) 0)
          - (cols.getD k []).getD p 0)) := by
  obtain ⟨pairs, hpairs⟩ := mapOpt_isSome
    (fun k => (rawCol g data E a b k).map fun raw =>
      (poolCol data k raw,
        (253/200 : ℚ) * npMedian (List.zipWith (· - ·) raw (poolCol data k raw))))
    (List.range data.length)
    (fun k hkMem => by
      obtain ⟨raw, hraw⟩ := rawCol_isSome g data E a b hg hdata k
        (List.mem_range.1 hkMem)
      simp only [hraw, Option.map_some', Option.isSome_some])
  have hplen : pairs.length = data.length := by
    rw [mapOpt_length _ _ _ hpairs, List.length_range]
  refine ⟨List.map Prod.fst pairs, List.map Prod.snd pairs,
    by rw [calc_e, hpairs]; rfl,
    by rw [List.length_map, hplen], by rw [List.length_map, hplen],
    fun k hk => ?_⟩
  have hframe : (data.getD k []).length = P := hP _ (getD_mem_of_lt data k hk [])
  obtain ⟨raw, hraw, hrawlen, hrawval⟩ :=
    rawCol_spec g data E a b P k hg hP hE hdata hk
  have hrange : (List.range data.length).getD k 0 = k := by
    rw [List.getD_eq_getElem _ _ (by simpa using hk), List.getElem_range]
  have hpair := mapOpt_getD _ (List.range data.length) pairs hpairs k
    (by simpa using hk) 0 ([], 0)
  rw [hrange] at hpair
  rw [hraw, Option.map_some'] at hpair
  have hpairEq : pairs.getD k ([], 0) = (poolCol data k raw,
      (253/200 : ℚ) * npMedian (List.zipWith (· - ·) raw (poolCol data k raw))) :=
    (Option.some_inj.1 hpair).symm
  have hcolsk : (List.map Prod.fst pairs).getD k [] = poolCol data k raw := by
    rw [getD_map_poly Prod.fst pairs k (by omega) ([], 0) [], hpairEq]
  have hmedk : (List.map Prod.snd pairs).getD k 0
      = (253/200 : ℚ) * npMedian (List.zipWith (· - ·) raw (poolCol data k raw)) := by
    rw [getD_map_poly Prod.snd pairs k (by omega) ([], 0) 0, hpairEq]
  have hpc : (poolCol data k raw).length = P := by
    rw [poolCol, List.length_map, hframe]
  constructor
  · intro p hp
    rw [hcolsk, poolCol,
      getD_map_poly _ (data.getD k []) p (by omega) 0 0]
    exact congrArg listMean (List.map_congr_left (fun y hy =>
      hrawval y (by
        have := pool_mem_lt data k _ 1 y hy
        omega)))
  · have hlists : List.zipWith (· - ·) raw (poolCol data k raw)
        = (List.range P).map (fun p =>
            (a.getD k 0 * E.getD p 0 + b.getD k 0
              - g.getD (codeIdx ((data.getD k []).getD p 0)) 0)
            - (poolCol data k raw).getD p 0) := by
      apply List.ext_getElem
      · rw [List.length_zipWith, hrawlen, hpc, List.length_map,
          List.length_range, min_self]
      intro j hj hj'
      have hjP : j < P := by
        rw [List.length_zipWith, hrawlen, hpc, min_self] at hj
        exact hj
      rw [List.getElem_zipWith, List.getElem_map, List.getElem_range,
        ← List.getD_eq_getElem raw 0 (by omega),
        ← List.getD_eq_getElem (poolCol data k raw) 0 (by omega),
        hrawval j hjP]
    rw [hmedk, hcolsk, hlists]

/-- Witness instantiating `calc_e_spec` on a concrete two-frame set. -/
theorem calc_e_spec_witness :
    ∃ cols med,
      calc_e idCurve [[(0:ℚ),0,0,2],[0,0,2,0]] [0,0,1,1] [1,1] [0,0]
          = some (cols, med) ∧
      cols.length = ([[(0:ℚ),0,0,2],[0,0,2,0]] : List (List ℚ)).length ∧
      med.length = ([[(0:ℚ),0,0,2],[0,0,2,0]] : List (List ℚ)).length ∧
      ∀ k, k < ([[(0:ℚ),0,0,2],[0,0,2,0]] : List (List ℚ)).length →
        (∀ p, p < 4 → (cols.getD k []).getD p 0 =
          listMean (List.map
            (fun y => [(1:ℚ),1].getD k 0 * [(0:ℚ),0,1,1].getD y 0
              + [(0:ℚ),0].getD k 0
              - idCurve.getD
                  (codeIdx ((([[(0:ℚ),0,0,2],[0,0,2,0]] :
                    List (List ℚ)).getD k []).getD y 0)) 0)
            (pool [[(0:ℚ),0,0,2],[0,0,2,0]] k
              ((([[(0:ℚ),0,0,2],[0,0,2,0]] :
                List (List ℚ)).getD k []).getD p 0)))) ∧
        med.getD k 0 = 253/200 * npMedian ((List.range 4).map (fun p =>
          ([(1:ℚ),1].getD k 0 * [(0:ℚ),0,1,1].getD p 0 + [(0:ℚ),0].getD k 0
            - idCurve.getD
                (codeIdx ((([[(0:ℚ),0,0,2],[0,0,2,0]] :
                  List (List ℚ)).getD k []).getD p 0)) 0)
          - (cols.getD k []).getD p 0)) :=
  calc_e_spec idCurve [[(0:ℚ),0,0,2],[0,0,2,0]] [0,0,1,1] [1,1] [0,0] 4
    idCurve_length
    (by intro f hf; fin_cases hf <;> rfl)
    rfl
    (by
      intro f hf x hx
      have hx2 : x = 0 ∨ x = 2 := by
        fin_cases hf <;> fin_cases hx <;> norm_num
      rcases hx2 with rfl | rfl
      · exact ⟨0, by norm_num⟩
      · exact ⟨2, by norm_num⟩)
